import Mathlib

/-!
Shallow embedding of `src/html.rs` (the HTML side-by-side renderer):
the Span Styler (`apply_line`), the Match Classifier (`apply_styles`)
and the pairing loop of the Pair Renderer (`print`), together with the
theorems that settle the specification's claims about them.

Lines of text are modelled as `List Char` (the sequence of codepoints).
Rust `&str` range indexing `line[a..b]` is indexing by UTF-8 *byte*
offsets and panics when an offset is out of range, not on a character
boundary, or when `a > b`; it is modelled by `byteSlice`, which returns
`none` exactly in the panicking cases.
-/

/-- UTF-8 byte length of one codepoint, as used by Rust `&str` indexing. -/
def char_utf8_len (c : Char) : Nat :=
  if c.val < 0x80 then 1
  else if c.val < 0x800 then 2
  else if c.val < 0x10000 then 3
  else 4

/-- Total UTF-8 byte length of a line. -/
def byte_len (line : List Char) : Nat :=
  (line.map char_utf8_len).sum

/-- Modelled from the spec: `codepoint_len(line)` is the integer count of
codepoints in `line` (`crate::lines::codepoint_len`, not under `src/`). -/
def codepoint_len (line : List Char) : Nat :=
  line.length

/-- Helper for `byteSlice`; assumes `a ≤ b` (kept by the recursion). -/
def byteSliceAux : List Char → Nat → Nat → Option (List Char)
  | _, 0, 0 => some []
  | [], 0, _+1 => none
  | [], _+1, _ => none
  | c :: rest, 0, b+1 =>
      if char_utf8_len c ≤ b+1 then
        (byteSliceAux rest 0 (b+1 - char_utf8_len c)).map (c :: ·)
      else none
  | c :: rest, a+1, b =>
      if char_utf8_len c ≤ a+1 then
        byteSliceAux rest (a+1 - char_utf8_len c) (b - char_utf8_len c)
      else none

/-- Rust `&line[a..b]` on a `&str`: indexing by UTF-8 byte offsets.
`none` models the panic (offset out of range, not on a character
boundary, or `a > b`). -/
def byteSlice (line : List Char) (a b : Nat) : Option (List Char) :=
  if a ≤ b then byteSliceAux line a b else none

/-- Modelled from the spec: a half-open column range `[start_col, end_col)`
within one line, measured in codepoints, plus the owning line number
(`crate::positions::SingleLineSpan`, not under `src/`). -/
structure SingleLineSpan where
  line : Nat
  start_col : Nat
  end_col : Nat
deriving DecidableEq, Repr

/-- One styled run: substring text plus its style-tag list
(Rust `(String, Vec<&'static str>)`). -/
abbrev StyledRun := List Char × List String

/-- The loop of `apply_line` (`src/html.rs` lines 30-46): `offset` is the
cursor; for each `(span, classes)` emit the untagged gap when
`offset < span.start_col`, then the tagged span text, then advance the
cursor to `span.end_col`; finally emit the trailing untagged run when
`offset < codepoint_len line`. -/
def apply_line_go (line : List Char) : Nat → List (SingleLineSpan × List String) → Option (List StyledRun)
  | offset, [] =>
      if offset < codepoint_len line then
        (byteSlice line offset (byte_len line)).map (fun s => [(s, ([] : List String))])
      else some []
  | offset, (span, classes) :: rest =>
      (if offset < span.start_col then
          (byteSlice line offset span.start_col).map (fun s => [(s, ([] : List String))])
        else some []).bind fun gap =>
      (byteSlice line span.start_col span.end_col).bind fun txt =>
      (apply_line_go line span.end_col rest).map fun tail =>
      gap ++ (txt, classes) :: tail

/-- `apply_line` from `src/html.rs` lines 26-49: split a line into styled
runs according to a style-span list, starting with cursor `0`. -/
def apply_line (line : List Char) (styles : List (SingleLineSpan × List String)) : Option (List StyledRun) :=
  apply_line_go line 0 styles

example : apply_line ['a', 'b', 'c'] [(⟨0, 0, 1⟩, ["x"]), (⟨0, 1, 2⟩, ["y"])]
    = some [(['a'], ["x"]), (['b'], ["y"]), (['c'], [])] := by decide

example : apply_line ['é', 'é'] [(⟨0, 0, 2⟩, [])] = some [(['é'], [])] := by decide

example : apply_line ['é', 'a'] [(⟨0, 1, 2⟩, [])] = none := by decide

/-- Modelled from the spec: codepoint-offset slicing — the substring of
`line` from codepoint offset `a` (inclusive) to `b` (exclusive). -/
def codepointSlice (line : List Char) (a b : Nat) : List Char :=
  (line.drop a).take (b - a)

/-- Modelled from the spec: the Span Styler algorithm of §4.1 with every
substring extraction done "by codepoint offset, not byte offset": same
control flow as `apply_line_go`, but each slice selects the codepoint
range of the line. -/
def apply_line_spec_go (line : List Char) : Nat → List (SingleLineSpan × List String) → List StyledRun
  | offset, [] =>
      if offset < codepoint_len line then [(codepointSlice line offset (codepoint_len line), [])]
      else []
  | offset, (span, classes) :: rest =>
      (if offset < span.start_col then [(codepointSlice line offset span.start_col, ([] : List String))]
        else [])
      ++ (codepointSlice line span.start_col span.end_col, classes)
        :: apply_line_spec_go line span.end_col rest

/-- The Span Styler as the spec describes it (codepoint slicing). -/
def apply_line_spec (line : List Char) (styles : List (SingleLineSpan × List String)) : List StyledRun :=
  apply_line_spec_go line 0 styles

/-- Modelled from the spec: `AtomKind` ∈ {Normal, String, Type, Comment,
Keyword} (`crate::syntax::AtomKind`, not under `src/`). -/
inductive AtomKind where
  | Normal
  | String
  | «Type»
  | Comment
  | Keyword
deriving DecidableEq, Repr

/-- Modelled from the spec: polymorphic highlight descriptor; the relevant
variant is `Atom (AtomKind)`, other variants contribute no style tag
(`crate::syntax::TokenKind`, not under `src/`). -/
inductive TokenKind where
  | Atom (kind : AtomKind)
  | Delimiter
deriving DecidableEq, Repr

/-- Modelled from the spec: tagged variant over {UnchangedToken, Novel,
NovelLinePart, NovelWord}, each carrying a `TokenKind` highlight value
(`crate::syntax::MatchKind`, not under `src/`). -/
inductive MatchKind where
  | UnchangedToken (highlight : TokenKind)
  | Novel (highlight : TokenKind)
  | NovelLinePart (highlight : TokenKind)
  | NovelWord (highlight : TokenKind)
deriving DecidableEq, Repr

/-- Modelled from the spec: one matched token occurrence, carrying its
`SingleLineSpan` and `MatchKind` (`crate::syntax::MatchedPos`, not under
`src/`). -/
structure MatchedPos where
  pos : SingleLineSpan
  kind : MatchKind
deriving DecidableEq, Repr

/-- The novelty match of `apply_styles` (`src/html.rs` lines 59-69):
`Novel` and `NovelWord` push the side-specific tag, `UnchangedToken` and
`NovelLinePart` push nothing. -/
def novelty_class (is_lhs : Bool) : MatchKind → List String
  | .Novel _ | .NovelWord _ => [if is_lhs then "novel-lhs" else "novel-rhs"]
  | .UnchangedToken _ => []
  | .NovelLinePart _ => []

/-- The highlight extraction of `apply_styles` (`src/html.rs` lines 71-76). -/
def kind_highlight : MatchKind → TokenKind
  | .UnchangedToken highlight => highlight
  | .Novel highlight => highlight
  | .NovelLinePart highlight => highlight
  | .NovelWord highlight => highlight

/-- The highlight match of `apply_styles` (`src/html.rs` lines 78-87). -/
def highlight_class : TokenKind → List String
  | .Atom kind =>
      match kind with
      | .Normal => []
      | .String => ["pl-s"]
      | .«Type» => ["pl-k"]
      | .Comment => ["pl-c"]
      | .Keyword => ["pl-k"]
  | _ => []

/-- The `span_classes` vector built for one `MatchedPos` by `apply_styles`
(`src/html.rs` lines 58-87): the novelty pushes followed by the highlight
push. -/
def span_classes (is_lhs : Bool) (kind : MatchKind) : List String :=
  novelty_class is_lhs kind ++ highlight_class (kind_highlight kind)

/-- The map from line numbers to style-span lists, as an association list. -/
abbrev LineStyles := List (Nat × List (SingleLineSpan × List String))

/-- `line_styles.entry(line).or_insert_with(Vec::new).push(item)`
(`src/html.rs` lines 89-90): append to the line's list, creating it when
absent. -/
def insert_push (m : LineStyles) (ln : Nat) (item : SingleLineSpan × List String) : LineStyles :=
  match m with
  | [] => [(ln, [item])]
  | (k, v) :: rest =>
      if k = ln then (k, v ++ [item]) :: rest
      else (k, v) :: insert_push rest ln item

/-- `HashMap::get(&ln)` on the built map. -/
def lookup_styles (m : LineStyles) (ln : Nat) : Option (List (SingleLineSpan × List String)) :=
  (m.find? (fun e => e.1 == ln)).map (·.2)

/-- `apply_styles` from `src/html.rs` lines 51-94: fold the `MatchedPos`
list into a per-line map, appending `(mp.pos, span_classes)` under the
span's line number. -/
def apply_styles (is_lhs : Bool) (mps : List MatchedPos) : LineStyles :=
  mps.foldl (fun m mp => insert_push m mp.pos.line (mp.pos, span_classes is_lhs mp.kind)) []

example : lookup_styles (apply_styles true
    [⟨⟨2, 0, 1⟩, .Novel (.Atom .Keyword)⟩, ⟨⟨1, 0, 1⟩, .UnchangedToken .Delimiter⟩,
     ⟨⟨2, 3, 4⟩, .UnchangedToken (.Atom .Comment)⟩]) 2
    = some [(⟨2, 0, 1⟩, ["novel-lhs", "pl-k"]), (⟨2, 3, 4⟩, ["pl-c"])] := by decide

/-- A rendered line: its number plus its styled runs
(Rust `NumberedLine`, `src/html.rs` line 15). -/
abbrev NumberedLine := Nat × List StyledRun

/-- One row of the paired view (`src/html.rs` line 21). -/
abbrev PairedLine := Option NumberedLine × Option NumberedLine

/-- One side of a paired line in `print` (`src/html.rs` lines 118-135):
`num.map(|ln| (ln, apply_line(lines[ln.0], styles.get(&ln).unwrap_or(&empty))))`.
The outer `Option` is `none` when the line index or `apply_line` panics. -/
def renderSide (lines : List (List Char)) (line_styles : LineStyles) (num : Option Nat) : Option (Option NumberedLine) :=
  match num with
  | none => some none
  | some ln =>
      match lines.get? ln with
      | none => none
      | some line =>
          (apply_line line ((lookup_styles line_styles ln).getD [])).map fun runs =>
            some (ln, runs)

/-- The inner loop of `print` (`src/html.rs` lines 117-137): render each
aligned pair of one hunk, in order. -/
def render_hunk (lhs_lines rhs_lines : List (List Char)) (ls rs : LineStyles) : List (Option Nat × Option Nat) → Option (List PairedLine)
  | [] => some []
  | p :: rest =>
      (renderSide lhs_lines ls p.1).bind fun lhs =>
      (renderSide rhs_lines rs p.2).bind fun rhs =>
      (render_hunk lhs_lines rhs_lines ls rs rest).map fun tail =>
      (lhs, rhs) :: tail

/-- The outer loop of `print` (`src/html.rs` lines 114-138): concatenate
the rendered pairs of every hunk, in hunk order. `aligned` is, per hunk,
the list the external aligner `matched_lines_for_hunk` returns. -/
def print_hunks (lhs_lines rhs_lines : List (List Char)) (ls rs : LineStyles) : List (List (Option Nat × Option Nat)) → Option (List PairedLine)
  | [] => some []
  | hunk :: rest =>
      (render_hunk lhs_lines rhs_lines ls rs hunk).bind fun hout =>
      (print_hunks lhs_lines rhs_lines ls rs rest).map fun tail =>
      hout ++ tail

/-- The paired-line construction of `print` (`src/html.rs` lines 96-138):
classify each side's matched positions with `apply_styles`, then render
every hunk's aligned pairs. `lhs_lines`/`rhs_lines` stand for
`split_on_newlines` of the two sources and `aligned` for the external
aligner's per-hunk output, both external collaborators. -/
def print_paired_lines (lhs_lines rhs_lines : List (List Char)) (lhs_mps rhs_mps : List MatchedPos)
    (aligned : List (List (Option Nat × Option Nat))) : Option (List PairedLine) :=
  print_hunks lhs_lines rhs_lines (apply_styles true lhs_mps) (apply_styles false rhs_mps) aligned

/-- Well-formedness of a style-span list relative to cursor `offset` and
line length `len`: each span starts at or after the cursor, is ordered
(`start_col ≤ end_col`), ends within the line, and the rest is
well-formed from its end (so the list is sorted ascending by start
column, non-overlapping, and in bounds). -/
def spans_wf (len : Nat) : Nat → List (SingleLineSpan × List String) → Bool
  | _, [] => true
  | offset, (span, _) :: rest =>
      decide (offset ≤ span.start_col) && decide (span.start_col ≤ span.end_col)
        && decide (span.end_col ≤ len) && spans_wf len span.end_col rest

/-- The half-open ranges (with their tags) that `apply_line_go` slices, in
emission order: gap ranges, span ranges and the trailing range. `cplen`
is the codepoint length used by the trailing guard and `blen` the byte
length the trailing slice extends to. -/
def style_ranges (cplen blen : Nat) : Nat → List (SingleLineSpan × List String) → List (Nat × Nat × List String)
  | offset, [] =>
      if offset < cplen then [(offset, blen, ([] : List String))] else []
  | offset, (span, classes) :: rest =>
      (if offset < span.start_col then [(offset, span.start_col, ([] : List String))] else [])
        ++ (span.start_col, span.end_col, classes)
        :: style_ranges cplen blen span.end_col rest

/-- A range list is in non-decreasing column order with no overlaps:
each range `[a, b)` starts at or after the cursor and ends at or before
the next range's start. -/
def ranges_sorted : Nat → List (Nat × Nat × List String) → Bool
  | _, [] => true
  | cur, (a, b, _) :: rest => decide (cur ≤ a) && decide (a ≤ b) && ranges_sorted b rest

/-- A styled run is the slice of the line at a given range, with the
range's tags. -/
def run_matches (line : List Char) (run : StyledRun) (rg : Nat × Nat × List String) : Prop :=
  byteSlice line rg.1 rg.2.1 = some run.1 ∧ run.2 = rg.2.2

example : print_paired_lines [['a']] [['b'], ['c']] [] [] [[(some 0, some 1)], [(none, some 0)]]
    = some [(some (0, [(['a'], [])]), some (1, [(['c'], [])])), (none, some (0, [(['b'], [])]))] := by
  rfl

theorem char_utf8_len_pos (c : Char) : 0 < char_utf8_len c := by
  unfold char_utf8_len
  split <;> [exact Nat.one_pos; split <;> [exact Nat.zero_lt_two; split <;> simp]]

theorem codepoint_len_le_byte_len (line : List Char) : codepoint_len line ≤ byte_len line := by
  induction line with
  | nil => simp [codepoint_len, byte_len]
  | cons c rest ih =>
      simp only [codepoint_len, byte_len, List.map_cons, List.sum_cons, List.length_cons]
      have := char_utf8_len_pos c
      simp only [codepoint_len, byte_len] at ih
      omega

theorem byteSliceAux_full (line : List Char) : byteSliceAux line 0 (byte_len line) = some line := by
  induction line with
  | nil => simp [byteSliceAux, byte_len]
  | cons c rest ih =>
      have hpos := char_utf8_len_pos c
      have hlen : byte_len (c :: rest) = char_utf8_len c + byte_len rest := by
        simp [byte_len]
      obtain ⟨b, hb⟩ : ∃ b, byte_len (c :: rest) = b + 1 := ⟨byte_len (c :: rest) - 1, by omega⟩
      rw [hb]
      simp only [byteSliceAux]
      have hle : char_utf8_len c ≤ b + 1 := by omega
      rw [if_pos hle]
      have : b + 1 - char_utf8_len c = byte_len rest := by omega
      rw [this, ih]
      rfl

theorem byteSlice_full (line : List Char) : byteSlice line 0 (byte_len line) = some line := by
  simp [byteSlice, byteSliceAux_full]

theorem ascii_byte_len (line : List Char) (h : ∀ c ∈ line, char_utf8_len c = 1) :
    byte_len line = line.length := by
  induction line with
  | nil => simp [byte_len]
  | cons c rest ih =>
      have hc : char_utf8_len c = 1 := h c (List.mem_cons_self c rest)
      have := ih (fun d hd => h d (List.mem_cons_of_mem c hd))
      simp only [byte_len, List.map_cons, List.sum_cons, List.length_cons] at *
      omega

theorem ascii_byteSliceAux (line : List Char) (h : ∀ c ∈ line, char_utf8_len c = 1) :
    ∀ a b, a ≤ b → b ≤ line.length →
      byteSliceAux line a b = some ((line.drop a).take (b - a)) := by
  induction line with
  | nil =>
      intro a b hab hb
      simp only [List.length_nil, Nat.le_zero] at hb
      subst hb
      simp only [Nat.le_zero] at hab
      subst hab
      simp [byteSliceAux]
  | cons c rest ih =>
      intro a b hab hb
      have hc : char_utf8_len c = 1 := h c (List.mem_cons_self c rest)
      have hrest : ∀ d ∈ rest, char_utf8_len d = 1 :=
        fun d hd => h d (List.mem_cons_of_mem c hd)
      match a, b with
      | 0, 0 => simp [byteSliceAux]
      | 0, b + 1 =>
          simp only [byteSliceAux, hc]
          rw [if_pos (by omega), Nat.add_sub_cancel]
          rw [ih hrest 0 b (Nat.zero_le b) (by simpa using hb)]
          simp
      | a + 1, b =>
          simp only [byteSliceAux, hc]
          rw [if_pos (by omega), Nat.add_sub_cancel]
          rw [ih hrest a (b - 1) (by omega) (by simp at hb; omega)]
          have h1 : b - 1 - a = b - (a + 1) := by omega
          simp [h1]

theorem ascii_byteSlice (line : List Char) (h : ∀ c ∈ line, char_utf8_len c = 1)
    (a b : Nat) (hab : a ≤ b) (hb : b ≤ line.length) :
    byteSlice line a b = some ((line.drop a).take (b - a)) := by
  simp [byteSlice, hab, ascii_byteSliceAux line h a b hab hb]

theorem apply_line_nil (line : List Char) :
    apply_line line [] = some (if line.length = 0 then [] else [(line, [])]) := by
  unfold apply_line apply_line_go codepoint_len
  by_cases h : 0 < line.length
  · rw [if_pos h, byteSlice_full, if_neg (by omega)]
    simp
  · rw [if_neg h, if_pos (by omega)]

theorem apply_line_go_ascii (line : List Char) (hasc : ∀ c ∈ line, char_utf8_len c = 1) :
    ∀ (styles : List (SingleLineSpan × List String)) (offset : Nat),
      spans_wf (codepoint_len line) offset styles = true →
      ∃ runs, apply_line_go line offset styles = some runs := by
  intro styles
  induction styles with
  | nil =>
      intro offset _
      unfold apply_line_go
      by_cases h : offset < codepoint_len line
      · rw [if_pos h,
          ascii_byteSlice line hasc offset (byte_len line)
            (by rw [ascii_byte_len line hasc]; exact Nat.le_of_lt h)
            (by rw [ascii_byte_len line hasc])]
        exact ⟨_, rfl⟩
      · rw [if_neg h]; exact ⟨[], rfl⟩
  | cons sc rest ih =>
      intro offset hwf
      obtain ⟨span, classes⟩ := sc
      simp only [spans_wf, Bool.and_eq_true, decide_eq_true_eq] at hwf
      obtain ⟨⟨⟨h1, h2⟩, h3⟩, h4⟩ := hwf
      have hlen : codepoint_len line = line.length := rfl
      obtain ⟨tail, htail⟩ := ih span.end_col h4
      have htxt := ascii_byteSlice line hasc span.start_col span.end_col h2 (by omega)
      unfold apply_line_go
      by_cases hgap : offset < span.start_col
      · rw [if_pos hgap,
          ascii_byteSlice line hasc offset span.start_col (Nat.le_of_lt hgap) (by omega),
          htxt, htail]
        exact ⟨_, rfl⟩
      · rw [if_neg hgap, htxt, htail]
        exact ⟨_, rfl⟩

theorem apply_line_go_ranges (line : List Char) :
    ∀ (styles : List (SingleLineSpan × List String)) (offset : Nat) (runs : List StyledRun),
      apply_line_go line offset styles = some runs →
      List.Forall₂ (run_matches line) runs
        (style_ranges (codepoint_len line) (byte_len line) offset styles) := by
  intro styles
  induction styles with
  | nil =>
      intro offset runs hruns
      unfold apply_line_go at hruns
      unfold style_ranges
      by_cases h : offset < codepoint_len line
      · rw [if_pos h] at hruns
        rw [if_pos h]
        obtain ⟨s, hs, rfl⟩ := Option.map_eq_some'.mp hruns
        exact List.Forall₂.cons ⟨hs, rfl⟩ List.Forall₂.nil
      · rw [if_neg h] at hruns
        rw [if_neg h]
        cases hruns
        exact List.Forall₂.nil
  | cons sc rest ih =>
      intro offset runs hruns
      obtain ⟨span, classes⟩ := sc
      unfold apply_line_go at hruns
      unfold style_ranges
      by_cases hgap : offset < span.start_col
      · rw [if_pos hgap] at hruns
        rw [if_pos hgap]
        simp only [Option.bind_eq_some, Option.map_eq_some'] at hruns
        obtain ⟨gap, ⟨g, hg, rfl⟩, txt, htxt, tail, htail, rfl⟩ := hruns
        exact List.Forall₂.cons ⟨hg, rfl⟩
          (List.Forall₂.cons ⟨htxt, rfl⟩ (ih span.end_col tail htail))
      · rw [if_neg hgap] at hruns
        rw [if_neg hgap]
        simp only [Option.bind_eq_some, Option.map_eq_some', Option.some.injEq] at hruns
        obtain ⟨gap, hgapeq, txt, htxt, tail, htail, rfl⟩ := hruns
        cases hgapeq
        exact List.Forall₂.cons ⟨htxt, rfl⟩ (ih span.end_col tail htail)

theorem style_ranges_sorted (cplen blen : Nat) (hcb : cplen ≤ blen) :
    ∀ (styles : List (SingleLineSpan × List String)) (offset : Nat),
      spans_wf cplen offset styles = true →
      ranges_sorted offset (style_ranges cplen blen offset styles) = true := by
  intro styles
  induction styles with
  | nil =>
      intro offset _
      unfold style_ranges
      by_cases h : offset < cplen
      · rw [if_pos h]
        simp only [ranges_sorted, Bool.and_eq_true, decide_eq_true_eq, and_assoc, and_true]
        omega
      · rw [if_neg h]; rfl
  | cons sc rest ih =>
      intro offset hwf
      obtain ⟨span, classes⟩ := sc
      simp only [spans_wf, Bool.and_eq_true, decide_eq_true_eq] at hwf
      obtain ⟨⟨⟨h1, h2⟩, h3⟩, h4⟩ := hwf
      have hrec := ih span.end_col h4
      unfold style_ranges
      by_cases hgap : offset < span.start_col
      · rw [if_pos hgap]
        simp only [List.cons_append, List.nil_append, ranges_sorted, Bool.and_eq_true,
          decide_eq_true_eq, and_assoc]
        exact ⟨Nat.le_refl _, Nat.le_of_lt hgap, Nat.le_refl _, h2, hrec⟩
      · rw [if_neg hgap]
        simp only [List.nil_append, ranges_sorted, Bool.and_eq_true, decide_eq_true_eq,
          and_assoc]
        exact ⟨h1, h2, hrec⟩

theorem style_ranges_ne_nil (cplen blen : Nat) (offset : Nat)
    (sc : SingleLineSpan × List String) (rest : List (SingleLineSpan × List String)) :
    style_ranges cplen blen offset (sc :: rest) ≠ [] := by
  obtain ⟨span, classes⟩ := sc
  unfold style_ranges
  by_cases hgap : offset < span.start_col
  · rw [if_pos hgap]; simp
  · rw [if_neg hgap]; simp

theorem style_ranges_getLast (cplen blen : Nat) :
    ∀ (styles : List (SingleLineSpan × List String)) (offset : Nat)
      (span : SingleLineSpan) (classes : List String),
      styles.getLast? = some (span, classes) → span.end_col = cplen →
      (style_ranges cplen blen offset styles).getLast?
        = some (span.start_col, span.end_col, classes) := by
  intro styles
  induction styles with
  | nil => intro offset span classes h _; simp at h
  | cons sc rest ih =>
      intro offset span classes hlast hend
      match rest, hlast with
      | [], hlast1 =>
          simp only [List.getLast?_singleton, Option.some.injEq] at hlast1
          obtain rfl := hlast1
          unfold style_ranges
          rw [show style_ranges cplen blen span.end_col [] = [] by
            unfold style_ranges; rw [if_neg (by omega)]]
          by_cases hgap : offset < span.start_col
          · rw [if_pos hgap]
            rfl
          · rw [if_neg hgap]
            rfl
      | r :: rs, hlast2 =>
          rw [List.getLast?_cons_cons] at hlast2
          obtain ⟨s, c⟩ := sc
          have hrec := ih s.end_col span classes hlast2 hend
          unfold style_ranges
          have hne := style_ranges_ne_nil cplen blen s.end_col r rs
          by_cases hgap : offset < s.start_col
          · rw [if_pos hgap]
            rw [List.cons_append, List.nil_append, List.getLast?_cons_cons,
              show ((s.start_col, s.end_col, c) :: style_ranges cplen blen s.end_col (r :: rs))
                  = [(s.start_col, s.end_col, c)] ++ style_ranges cplen blen s.end_col (r :: rs)
                from rfl,
              List.getLast?_append_of_ne_nil _ hne]
            exact hrec
          · rw [if_neg hgap, List.nil_append,
              show ((s.start_col, s.end_col, c) :: style_ranges cplen blen s.end_col (r :: rs))
                  = [(s.start_col, s.end_col, c)] ++ style_ranges cplen blen s.end_col (r :: rs)
                from rfl,
              List.getLast?_append_of_ne_nil _ hne]
            exact hrec

theorem apply_line_go_adjacent (line : List Char) (s1 s2 : SingleLineSpan)
    (c1 c2 : List String) (rest : List (SingleLineSpan × List String))
    (t1 t2 : List Char) (tail : List StyledRun)
    (hadj : s1.end_col = s2.start_col)
    (h1 : byteSlice line s1.start_col s1.end_col = some t1)
    (h2 : byteSlice line s2.start_col s2.end_col = some t2)
    (h3 : apply_line_go line s2.end_col rest = some tail) :
    apply_line_go line s1.start_col ((s1, c1) :: (s2, c2) :: rest)
      = some ((t1, c1) :: (t2, c2) :: tail) := by
  unfold apply_line_go
  rw [if_neg (by omega), Option.some_bind, h1, Option.some_bind]
  unfold apply_line_go
  rw [hadj, if_neg (by omega), Option.some_bind, h2, Option.some_bind, h3]
  rfl

theorem lookup_insert_same (ln : Nat) (item : SingleLineSpan × List String) :
    ∀ m : LineStyles,
      lookup_styles (insert_push m ln item) ln
        = some ((lookup_styles m ln).getD [] ++ [item]) := by
  intro m
  induction m with
  | nil => simp [insert_push, lookup_styles, List.find?]
  | cons kv rest ih =>
      obtain ⟨k, v⟩ := kv
      by_cases hk : k = ln
      · subst hk
        simp [insert_push, lookup_styles, List.find?]
      · simp only [insert_push, if_neg hk]
        simp only [lookup_styles, List.find?] at *
        rw [show (k == ln) = false by simpa using hk]
        simpa using ih

theorem lookup_insert_other (ln ln' : Nat) (item : SingleLineSpan × List String)
    (h : ln' ≠ ln) :
    ∀ m : LineStyles,
      lookup_styles (insert_push m ln item) ln' = lookup_styles m ln' := by
  intro m
  induction m with
  | nil =>
      simp only [insert_push, lookup_styles, List.find?]
      rw [show (ln == ln') = false by simpa using fun he => h he.symm]
  | cons kv rest ih =>
      obtain ⟨k, v⟩ := kv
      by_cases hk : k = ln
      · subst hk
        simp only [insert_push, if_pos rfl, lookup_styles, List.find?]
        rw [show (k == ln') = false by simpa using fun he => h he.symm]
      · simp only [insert_push, if_neg hk]
        simp only [lookup_styles, List.find?] at *
        cases hkl : (k == ln' : Bool)
        · simpa [hkl] using ih
        · simp [hkl]

theorem lookup_apply_styles_go (is_lhs : Bool) :
    ∀ (mps : List MatchedPos) (m : LineStyles) (ln : Nat),
      (lookup_styles
          (mps.foldl (fun acc mp =>
            insert_push acc mp.pos.line (mp.pos, span_classes is_lhs mp.kind)) m) ln).getD []
        = (lookup_styles m ln).getD []
            ++ (mps.filter (fun mp => mp.pos.line == ln)).map
                (fun mp => (mp.pos, span_classes is_lhs mp.kind)) := by
  intro mps
  induction mps with
  | nil => intro m ln; simp
  | cons mp rest ih =>
      intro m ln
      rw [List.foldl_cons, ih]
      by_cases hln : mp.pos.line = ln
      · subst hln
        rw [lookup_insert_same]
        simp [List.filter_cons, List.append_assoc]
      · rw [lookup_insert_other mp.pos.line ln _ (fun he => hln he.symm)]
        have : (mp.pos.line == ln : Bool) = false := by simpa using hln
        simp [List.filter_cons, this]

/-- Characterization of the Match Classifier's map: looking up a line
number yields exactly the input-ordered matched positions of that line,
each paired with its `span_classes`. -/
theorem lookup_apply_styles (is_lhs : Bool) (mps : List MatchedPos) (ln : Nat) :
    (lookup_styles (apply_styles is_lhs mps) ln).getD []
      = (mps.filter (fun mp => mp.pos.line == ln)).map
          (fun mp => (mp.pos, span_classes is_lhs mp.kind)) := by
  have h := lookup_apply_styles_go is_lhs mps [] ln
  simpa [apply_styles, lookup_styles, List.find?] using h

/-- Shape of one rendered side: present iff the aligned line number is
present, and carrying that line number. -/
theorem renderSide_shape (lines : List (List Char)) (ls : LineStyles)
    (num : Option Nat) (pl : Option NumberedLine)
    (h : renderSide lines ls num = some pl) :
    pl.isSome = num.isSome ∧ ∀ nl, pl = some nl → num = some nl.1 := by
  cases num with
  | none =>
      simp only [renderSide, Option.some.injEq] at h
      subst h
      exact ⟨rfl, fun nl hnl => by cases hnl⟩
  | some ln =>
      simp only [renderSide] at h
      cases hget : lines.get? ln with
      | none => rw [hget] at h; cases h
      | some line =>
          rw [hget] at h
          obtain ⟨runs, _, rfl⟩ := Option.map_eq_some'.mp h
          exact ⟨rfl, fun nl hnl => by cases hnl; rfl⟩

/-- The relation between one output `PairedLine` and the alignment pair
it was rendered from. -/
def pair_shape (pl : PairedLine) (pair : Option Nat × Option Nat) : Prop :=
  pl.1.isSome = pair.1.isSome ∧ pl.2.isSome = pair.2.isSome
    ∧ (∀ nl, pl.1 = some nl → pair.1 = some nl.1)
    ∧ (∀ nl, pl.2 = some nl → pair.2 = some nl.1)

theorem render_hunk_shape (lhs_lines rhs_lines : List (List Char)) (ls rs : LineStyles) :
    ∀ (pairs : List (Option Nat × Option Nat)) (out : List PairedLine),
      render_hunk lhs_lines rhs_lines ls rs pairs = some out →
      out.length = pairs.length ∧ List.Forall₂ pair_shape out pairs := by
  intro pairs
  induction pairs with
  | nil =>
      intro out h
      cases h
      exact ⟨rfl, List.Forall₂.nil⟩
  | cons p rest ih =>
      intro out h
      simp only [render_hunk, Option.bind_eq_some, Option.map_eq_some'] at h
      obtain ⟨lhs, hlhs, rhs, hrhs, tail, htail, rfl⟩ := h
      obtain ⟨hlen, hf⟩ := ih tail htail
      obtain ⟨hl1, hl2⟩ := renderSide_shape _ _ _ _ hlhs
      obtain ⟨hr1, hr2⟩ := renderSide_shape _ _ _ _ hrhs
      exact ⟨by simpa using hlen, List.Forall₂.cons ⟨hl1, hr1, hl2, hr2⟩ hf⟩

theorem print_hunks_shape (lhs_lines rhs_lines : List (List Char)) (ls rs : LineStyles) :
    ∀ (aligned : List (List (Option Nat × Option Nat))) (pls : List PairedLine),
      print_hunks lhs_lines rhs_lines ls rs aligned = some pls →
      ∃ rendered : List (List PairedLine),
        pls = rendered.flatten
        ∧ List.Forall₂ (fun hout hpairs => hout.length = hpairs.length
            ∧ List.Forall₂ pair_shape hout hpairs) rendered aligned := by
  intro aligned
  induction aligned with
  | nil =>
      intro pls h
      cases h
      exact ⟨[], rfl, List.Forall₂.nil⟩
  | cons hunk rest ih =>
      intro pls h
      simp only [print_hunks, Option.bind_eq_some, Option.map_eq_some'] at h
      obtain ⟨hout, hhout, tail, htail, rfl⟩ := h
      obtain ⟨rendered, rfl, hf⟩ := ih tail htail
      exact ⟨hout :: rendered, by simp [List.flatten],
        List.Forall₂.cons (render_hunk_shape _ _ _ _ hunk hout hhout) hf⟩

/-- C1: the round-trip (coverage) property fails on the code for a
well-formed codepoint-span list on a multi-byte line: on line `"éé"`
with the single in-bounds span `[0, 2)` the produced runs concatenate to
`"é"`, not `"éé"`, because the spans are sliced as byte offsets while the
trailing-run guard compares the byte cursor with the codepoint length. -/
theorem apply_line_multibyte_coverage_bug :
    spans_wf (codepoint_len ['é', 'é']) 0 [((⟨0, 0, 2⟩ : SingleLineSpan), ([] : List String))] = true
    ∧ apply_line ['é', 'é'] [(⟨0, 0, 2⟩, [])] = some [(['é'], [])]
    ∧ (((apply_line ['é', 'é'] [(⟨0, 0, 2⟩, [])]).getD []).map Prod.fst).flatten = ['é']
    ∧ (['é'] : List Char) ≠ ['é', 'é'] := by decide

/-- C2: substring extraction in `apply_line` is by byte offset, not
codepoint offset: on line `"éa"` the well-formed codepoint span `[1, 2)`
(the `'a'`) makes the code slice at byte offset 1, inside the two-byte
`'é'`, which panics (`none`), while the codepoint-offset Span Styler of
the spec returns the runs `"é"`, `"a"`. -/
theorem apply_line_byte_offset_bug :
    spans_wf (codepoint_len ['é', 'a']) 0 [((⟨0, 1, 2⟩ : SingleLineSpan), ([] : List String))] = true
    ∧ apply_line ['é', 'a'] [(⟨0, 1, 2⟩, [])] = none
    ∧ apply_line_spec ['é', 'a'] [(⟨0, 1, 2⟩, [])] = [(['é'], []), (['a'], [])] := by decide

/-- C3: every `MatchedPos` contributes its span with `span_classes` to
its line's list; `Novel` and `NovelWord` kinds carry the side-specific
novelty tag, `UnchangedToken` and `NovelLinePart` carry no novelty tag. -/
theorem apply_styles_novelty_tags (is_lhs : Bool) (mps : List MatchedPos)
    (mp : MatchedPos) (hmem : mp ∈ mps) :
    (mp.pos, span_classes is_lhs mp.kind)
        ∈ (lookup_styles (apply_styles is_lhs mps) mp.pos.line).getD []
    ∧ (match mp.kind with
        | .Novel _ | .NovelWord _ =>
            (if is_lhs then "novel-lhs" else "novel-rhs") ∈ span_classes is_lhs mp.kind
        | .UnchangedToken _ | .NovelLinePart _ =>
            "novel-lhs" ∉ span_classes is_lhs mp.kind
              ∧ "novel-rhs" ∉ span_classes is_lhs mp.kind) := by
  obtain ⟨pos, kind⟩ := mp
  constructor
  · rw [lookup_apply_styles]
    exact List.mem_map_of_mem _ (List.mem_filter.mpr ⟨hmem, by simp⟩)
  · cases kind with
    | Novel h => simp [span_classes, novelty_class]
    | NovelWord h => simp [span_classes, novelty_class]
    | UnchangedToken h =>
        cases h with
        | Atom k =>
            cases k <;>
              simp [span_classes, novelty_class, kind_highlight, highlight_class]
        | Delimiter =>
            simp [span_classes, novelty_class, kind_highlight, highlight_class]
    | NovelLinePart h =>
        cases h with
        | Atom k =>
            cases k <;>
              simp [span_classes, novelty_class, kind_highlight, highlight_class]
        | Delimiter =>
            simp [span_classes, novelty_class, kind_highlight, highlight_class]

theorem apply_styles_novelty_tags_witness :
    ((⟨0, 0, 1⟩ : SingleLineSpan), span_classes true (.Novel (.Atom .Keyword)))
        ∈ (lookup_styles
            (apply_styles true [⟨⟨0, 0, 1⟩, .Novel (.Atom .Keyword)⟩]) 0).getD []
    ∧ "novel-lhs" ∈ span_classes true (.Novel (.Atom .Keyword)) :=
  apply_styles_novelty_tags true [⟨⟨0, 0, 1⟩, .Novel (.Atom .Keyword)⟩]
    ⟨⟨0, 0, 1⟩, .Novel (.Atom .Keyword)⟩ (by decide)

/-- C4: each `span_classes` list is the novelty tag followed by the
highlight tag of the carried `TokenKind`, and the highlight tag follows
the fixed table: `Atom Normal` none, `Atom String` the string tag,
`Atom Type` and `Atom Keyword` the keyword tag, `Atom Comment` the
comment tag, non-`Atom` kinds none. -/
theorem highlight_table_correct (is_lhs : Bool) (kind : MatchKind) :
    span_classes is_lhs kind
        = novelty_class is_lhs kind ++ highlight_class (kind_highlight kind)
    ∧ highlight_class (.Atom .Normal) = []
    ∧ highlight_class (.Atom .String) = ["pl-s"]
    ∧ highlight_class (.Atom .«Type») = ["pl-k"]
    ∧ highlight_class (.Atom .Keyword) = ["pl-k"]
    ∧ highlight_class (.Atom .Comment) = ["pl-c"]
    ∧ highlight_class .Delimiter = [] :=
  ⟨rfl, rfl, rfl, rfl, rfl, rfl, rfl⟩

/-- C5: the paired lines produced by `print` are, hunk by hunk and pair
by pair in order, exactly one `PairedLine` per alignment pair, and each
side is present iff the pair's optional line number is present (and then
carries that line number). -/
theorem print_pairing_complete (lhs_lines rhs_lines : List (List Char))
    (lhs_mps rhs_mps : List MatchedPos)
    (aligned : List (List (Option Nat × Option Nat))) (pls : List PairedLine)
    (h : print_paired_lines lhs_lines rhs_lines lhs_mps rhs_mps aligned = some pls) :
    ∃ rendered : List (List PairedLine),
      pls = rendered.flatten
      ∧ List.Forall₂ (fun hout hpairs => hout.length = hpairs.length
          ∧ List.Forall₂ pair_shape hout hpairs) rendered aligned :=
  print_hunks_shape lhs_lines rhs_lines _ _ aligned pls h

theorem print_pairing_complete_witness :
    ∃ rendered : List (List PairedLine),
      ([(some (0, [(['a'], [])]), some (1, [(['c'], [])])),
        (none, some (0, [(['b'], [])]))] : List PairedLine)
        = rendered.flatten
      ∧ List.Forall₂ (fun hout hpairs => hout.length = hpairs.length
          ∧ List.Forall₂ pair_shape hout hpairs) rendered
          [[(some 0, some 1)], [(none, some 0)]] :=
  print_pairing_complete [['a']] [['b'], ['c']] [] []
    [[(some 0, some 1)], [(none, some 0)]]
    [(some (0, [(['a'], [])]), some (1, [(['c'], [])])),
     (none, some (0, [(['b'], [])]))] rfl

/-- C6: a line number with no entry in the style map is rendered with
the empty style list (not an error): `apply_line` then yields the single
untagged run holding the whole line, or no runs when the line is empty. -/
theorem missing_style_default (lines : List (List Char)) (m : LineStyles)
    (ln : Nat) (line : List Char)
    (hline : lines.get? ln = some line)
    (hmiss : lookup_styles m ln = none) :
    renderSide lines m (some ln)
      = some (some (ln, if line.length = 0 then [] else [(line, [])]))
    ∧ apply_line line [] = some (if line.length = 0 then [] else [(line, [])]) := by
  refine ⟨?_, apply_line_nil line⟩
  simp only [renderSide, hline, hmiss, Option.getD_none]
  rw [apply_line_nil line]
  rfl

theorem missing_style_default_witness :
    renderSide [['x']] [] (some 0) = some (some (0, [(['x'], [])]))
    ∧ apply_line ['x'] [] = some [(['x'], [])] :=
  missing_style_default [['x']] [] 0 ['x'] rfl rfl

/-- C7: the Match Classifier groups `(span, style-tags)` pairs by the
span's line number, preserving the input order of matched positions
within each line, and each style-tag list is the novelty tag (if any)
followed by the highlight tag (if any). -/
theorem apply_styles_grouping (is_lhs : Bool) (mps : List MatchedPos) (ln : Nat) :
    (lookup_styles (apply_styles is_lhs mps) ln).getD []
      = (mps.filter (fun mp => mp.pos.line == ln)).map
          (fun mp => (mp.pos, span_classes is_lhs mp.kind))
    ∧ ∀ mp : MatchedPos,
        span_classes is_lhs mp.kind
          = novelty_class is_lhs mp.kind ++ highlight_class (kind_highlight mp.kind) :=
  ⟨lookup_apply_styles is_lhs mps ln, fun _ => rfl⟩

/-- C8: the runs `apply_line` produces correspond one-to-one, in order,
to its slice ranges; those ranges are in non-decreasing column order and
never overlap; two adjacent spans with no gap produce consecutive runs
with no untagged run between them; a span whose `end_col` equals the
line's codepoint length leaves no trailing range. -/
theorem apply_line_run_order (line : List Char)
    (styles : List (SingleLineSpan × List String)) (runs : List StyledRun)
    (hwf : spans_wf (codepoint_len line) 0 styles = true)
    (hruns : apply_line line styles = some runs) :
    List.Forall₂ (run_matches line) runs
        (style_ranges (codepoint_len line) (byte_len line) 0 styles)
    ∧ ranges_sorted 0 (style_ranges (codepoint_len line) (byte_len line) 0 styles) = true
    ∧ (∀ (s1 s2 : SingleLineSpan) (c1 c2 : List String)
          (rest : List (SingleLineSpan × List String)) (t1 t2 : List Char)
          (tail : List StyledRun),
        s1.end_col = s2.start_col →
        byteSlice line s1.start_col s1.end_col = some t1 →
        byteSlice line s2.start_col s2.end_col = some t2 →
        apply_line_go line s2.end_col rest = some tail →
        apply_line_go line s1.start_col ((s1, c1) :: (s2, c2) :: rest)
          = some ((t1, c1) :: (t2, c2) :: tail))
    ∧ (∀ (span : SingleLineSpan) (classes : List String),
        styles.getLast? = some (span, classes) → span.end_col = codepoint_len line →
        (style_ranges (codepoint_len line) (byte_len line) 0 styles).getLast?
          = some (span.start_col, span.end_col, classes)) :=
  ⟨apply_line_go_ranges line styles 0 runs hruns,
   style_ranges_sorted _ _ (codepoint_len_le_byte_len line) styles 0 hwf,
   fun s1 s2 c1 c2 rest t1 t2 tail =>
     apply_line_go_adjacent line s1 s2 c1 c2 rest t1 t2 tail,
   fun span classes => style_ranges_getLast _ _ styles 0 span classes⟩

theorem apply_line_run_order_witness :
    List.Forall₂ (run_matches ['a'])
        [(['a'], ["x"])]
        (style_ranges (codepoint_len ['a']) (byte_len ['a']) 0 [(⟨0, 0, 1⟩, ["x"])])
    ∧ ranges_sorted 0
        (style_ranges (codepoint_len ['a']) (byte_len ['a']) 0 [(⟨0, 0, 1⟩, ["x"])]) = true
    ∧ (∀ (s1 s2 : SingleLineSpan) (c1 c2 : List String)
          (rest : List (SingleLineSpan × List String)) (t1 t2 : List Char)
          (tail : List StyledRun),
        s1.end_col = s2.start_col →
        byteSlice ['a'] s1.start_col s1.end_col = some t1 →
        byteSlice ['a'] s2.start_col s2.end_col = some t2 →
        apply_line_go ['a'] s2.end_col rest = some tail →
        apply_line_go ['a'] s1.start_col ((s1, c1) :: (s2, c2) :: rest)
          = some ((t1, c1) :: (t2, c2) :: tail))
    ∧ (∀ (span : SingleLineSpan) (classes : List String),
        ([(⟨0, 0, 1⟩, ["x"])] : List (SingleLineSpan × List String)).getLast?
            = some (span, classes) →
        span.end_col = codepoint_len ['a'] →
        (style_ranges (codepoint_len ['a']) (byte_len ['a']) 0
            [(⟨0, 0, 1⟩, ["x"])]).getLast?
          = some (span.start_col, span.end_col, classes)) :=
  apply_line_run_order ['a'] [(⟨0, 0, 1⟩, ["x"])] [(['a'], ["x"])] (by decide) (by decide)

/-- C9: the Match Classifier is a pure function of the side indicator
and the matched-position list — two runs on the same input produce the
same map and the same ordered list for every line number. -/
theorem apply_styles_deterministic (is_lhs : Bool) (mps : List MatchedPos) :
    apply_styles is_lhs mps = apply_styles is_lhs mps
    ∧ ∀ ln, lookup_styles (apply_styles is_lhs mps) ln
        = lookup_styles (apply_styles is_lhs mps) ln :=
  ⟨rfl, fun _ => rfl⟩

/-- C10: on a line of single-byte (ASCII) codepoints, a well-formed
style-span list makes every slice of `apply_line` in bounds and on
character boundaries, so it returns normally. -/
theorem apply_line_ascii_safe (line : List Char)
    (styles : List (SingleLineSpan × List String))
    (hascii : ∀ c ∈ line, char_utf8_len c = 1)
    (hwf : spans_wf (codepoint_len line) 0 styles = true) :
    ∃ runs, apply_line line styles = some runs :=
  apply_line_go_ascii line hascii styles 0 hwf

theorem apply_line_ascii_safe_witness :
    ∃ runs, apply_line ['a', 'b'] [(⟨0, 1, 2⟩, ["k"])] = some runs :=
  apply_line_ascii_safe ['a', 'b'] [(⟨0, 1, 2⟩, ["k"])] (by decide) (by decide)
